import Mathlib

/-!
Verification development for the cross-stitch planning engine.

The Rust sources are shallowly embedded: machine integers (`isize`/`usize`)
become `Int`/`Nat` with explicit bounds where overflow checking appears in the
source; fallible operations (checked arithmetic whose failure the source turns
into a panic via `unwrap`) become `Option`; Rust's `HashMap` becomes an
association list with unique keys (the source only ever iterates it inside
commutative folds or after sorting, so the representation is observationally
faithful).
-/

/-! ### grid_cell.rs -/

/-- Embeds `GridCell` (grid_cell.rs): an integer lattice point. -/
structure GridCell where
  x : Int
  y : Int
deriving DecidableEq, Repr

instance : Add GridCell := ⟨fun a b => ⟨a.x + b.x, a.y + b.y⟩⟩

instance : Sub GridCell := ⟨fun a b => ⟨a.x - b.x, a.y - b.y⟩⟩

/-- The largest value of the 64-bit signed `isize` type used by the source. -/
def isizeMax : Int := 2 ^ 63 - 1

/-- Embeds `isize::checked_pow(2)`: `some` of the square when it fits the
64-bit signed width, `none` (overflow) otherwise.  Squares are never below
`isize::MIN`, so only the upper bound is relevant. -/
def checked_pow_2 (d : Int) : Option Int :=
  if d ^ 2 ≤ isizeMax then some (d ^ 2) else none

/-- Embeds `GridCell::euclidean_distance_squared` (grid_cell.rs:31-34):
`(other.x - self.x).checked_pow(2).unwrap() + (other.y - self.y).checked_pow(2).unwrap()`
cast to `usize`.  The source panics (`unwrap`) when a square overflows, and the
final addition is itself overflow-checked in a debug build; every panic is
modelled as `none`.  The component subtractions are modelled exactly over
`Int`. -/
def GridCell.euclidean_distance_squared (a b : GridCell) : Option Nat :=
  match checked_pow_2 (b.x - a.x), checked_pow_2 (b.y - a.y) with
  | some sx, some sy => if sx + sy ≤ isizeMax then some (sx + sy).toNat else none
  | _, _ => none

/-! ### stitch.rs: corners -/

/-- Embeds `StartingStitchCorner` (stitch.rs:11-18).  The discriminants in the
source are BottomLeft = 0, TopLeft = 1, TopRight = 2, BottomRight = 3. -/
inductive StartingStitchCorner where
  | BottomLeft
  | TopLeft
  | TopRight
  | BottomRight
deriving DecidableEq, Repr

/-- The `ToPrimitive` discriminant of a corner (declaration order). -/
def StartingStitchCorner.to_u8 : StartingStitchCorner → Nat
  | .BottomLeft => 0
  | .TopLeft => 1
  | .TopRight => 2
  | .BottomRight => 3

/-- The `FromPrimitive` conversion back from a discriminant. -/
def StartingStitchCorner.from_u8 : Nat → Option StartingStitchCorner
  | 0 => some .BottomLeft
  | 1 => some .TopLeft
  | 2 => some .TopRight
  | 3 => some .BottomRight
  | _ => none

/-- Embeds `StartingStitchCorner::get_offset_from_bottom_left`
(stitch.rs:32-39). -/
def StartingStitchCorner.get_offset_from_bottom_left : StartingStitchCorner → GridCell
  | .BottomLeft => ⟨0, 0⟩
  | .BottomRight => ⟨1, 0⟩
  | .TopLeft => ⟨0, 1⟩
  | .TopRight => ⟨1, 1⟩

/-- Embeds `StartingStitchCorner::get_opposite_corner` (stitch.rs:41-44):
`from_u8((self as u8 + 2) % 4)`, with the unreachable panic branch of
`unwrap_or_else` modelled by an arbitrary default. -/
def StartingStitchCorner.get_opposite_corner (c : StartingStitchCorner) : StartingStitchCorner :=
  (StartingStitchCorner.from_u8 ((c.to_u8 + 2) % 4)).getD .BottomLeft

/-! ### stitch.rs: half stitches -/

/-- Embeds `HalfStitch` (stitch.rs:58-63). -/
structure HalfStitch where
  start : GridCell
  stitch_corner : StartingStitchCorner
deriving DecidableEq, Repr

/-- Embeds `HalfStitch::get_end_location` (stitch.rs:66-73). -/
def HalfStitch.get_end_location (h : HalfStitch) : GridCell :=
  let origin := h.start - h.stitch_corner.get_offset_from_bottom_left
  origin + h.stitch_corner.get_opposite_corner.get_offset_from_bottom_left

/-- Worker for `convert_grid_cells`, carrying the `seen_cells` set (the source
uses a `HashMap` keyed by cell as a set; only membership is observed). -/
def HalfStitch.convert_go (first_dir second_dir : StartingStitchCorner) :
    List GridCell → List GridCell → List HalfStitch
  | [], _ => []
  | cell :: rest, seen =>
    if cell ∈ seen then
      ⟨cell + second_dir.get_offset_from_bottom_left, second_dir⟩ ::
        HalfStitch.convert_go first_dir second_dir rest seen
    else
      ⟨cell + first_dir.get_offset_from_bottom_left, first_dir⟩ ::
        HalfStitch.convert_go first_dir second_dir rest (cell :: seen)

/-- Embeds `HalfStitch::convert_grid_cells` (stitch.rs:81-106). -/
def HalfStitch.convert_grid_cells (cells : List GridCell)
    (first_dir second_dir : StartingStitchCorner) : List HalfStitch :=
  HalfStitch.convert_go first_dir second_dir cells []

/-- Embeds `HalfStitch::_check_valid_sequence` (stitch.rs:125-139): scan
adjacent pairs in order; the first pair whose previous end location equals the
next start aborts the scan with `(prev.start, curr.start)`. -/
def HalfStitch.check_seq : List HalfStitch → Except (GridCell × GridCell) Unit
  | [] => .ok ()
  | [_] => .ok ()
  | a :: b :: rest =>
    if a.get_end_location = b.start then .error (a.start, b.start)
    else HalfStitch.check_seq (b :: rest)

/-! ### symbolic_sum.rs -/

/-- Embeds `SymbolicSum` (symbolic_sum.rs:7-11).  The Rust
`HashMap<usize, usize>` of radicand-to-coefficient entries is represented as an
association list with unique keys. -/
structure SymbolicSum where
  constant : Nat
  square_root_terms : List (Nat × Nat)
deriving DecidableEq, Repr

/-- Model of the external crate call `Factorization::<u64>::run(n)`: the
multiset of prime factors of `n` in ascending order, empty for `n ≤ 1`
(the crate returns no factors for 0 and 1, which the repository's own test
for `decompose(1)` depends on). -/
def factorization_run (n : Nat) : List Nat := Nat.primeFactorsList n

/-- The `factor_counts` map of `SymbolicSum::decompose` (symbolic_sum.rs:45-49):
each distinct prime factor paired with its exponent. -/
def factor_counts (n : Nat) : List (Nat × Nat) :=
  (factorization_run n).dedup.map fun p => (p, (factorization_run n).count p)

/-- Embeds `SymbolicSum::decompose` (symbolic_sum.rs:42-76): fold the factor
counts into the largest square divisor and the square-free remainder, then
produce the one-entry map `{R or 1 ↦ S}`.  The Rust fold iterates the
`HashMap` in unspecified order; both components are commutative products, so
folding the count list in order is observationally identical. -/
def SymbolicSum.decompose (squared_number : Nat) : List (Nat × Nat) :=
  let counts := factor_counts squared_number
  let sr := counts.foldl
    (fun (sr : Nat × Nat) (pe : Nat × Nat) =>
      (sr.1 * pe.1 ^ (pe.2 / 2), sr.2 * if pe.2 % 2 > 0 then pe.1 else 1))
    (1, 1)
  [(if sr.2 = 1 then 1 else sr.2, sr.1)]

/-- Embeds `*map.entry(k).or_insert(0) += v` on the association-list
representation: add `v` to the entry at `k`, creating it when absent. -/
def update_term : List (Nat × Nat) → Nat → Nat → List (Nat × Nat)
  | [], k, v => [(k, v)]
  | kv0 :: rest, k, v =>
    if kv0.1 = k then (kv0.1, kv0.2 + v) :: rest
    else kv0 :: update_term rest k v

/-- Coefficient stored under key `k` (0 when absent). -/
def lookup_term (ts : List (Nat × Nat)) (k : Nat) : Nat :=
  ((ts.find? fun kv => kv.1 == k).map Prod.snd).getD 0

/-- The body of `SymbolicSum::add_distance` after the squared distance has been
computed (symbolic_sum.rs:35-39): `remove(&1)` feeds the constant, the
remaining entries accumulate into `square_root_terms`. -/
def SymbolicSum.add_decomposition (s : SymbolicSum) (d : List (Nat × Nat)) : SymbolicSum :=
  let c := ((d.find? fun kv => kv.1 == 1).map Prod.snd).getD 0
  let rest := d.filter fun kv => kv.1 != 1
  { constant := s.constant + c,
    square_root_terms := rest.foldl (fun ts kv => update_term ts kv.1 kv.2) s.square_root_terms }

/-- Embeds `SymbolicSum::add_distance` (symbolic_sum.rs:33-40).  The squared
distance is the overflow-checked `GridCell::euclidean_distance_squared`; its
panic propagates as `none`. -/
def SymbolicSum.add_distance (s : SymbolicSum) (first second : GridCell) : Option SymbolicSum :=
  (first.euclidean_distance_squared second).map fun n =>
    s.add_decomposition (SymbolicSum.decompose n)

/-- Embeds the `Display` implementation for `SymbolicSum`
(symbolic_sum.rs:13-30): the constant, then each term in ascending radicand
order, a coefficient of 1 rendered without the leading number. -/
def SymbolicSum.render (s : SymbolicSum) : String :=
  let keys := (s.square_root_terms.map Prod.fst).mergeSort (· ≤ ·)
  keys.foldl
    (fun acc k =>
      let c := lookup_term s.square_root_terms k
      if c > 1 then acc ++ " + " ++ toString c ++ "√" ++ toString k
      else acc ++ " + √" ++ toString k)
    (toString s.constant)

/-! ### stitch.rs: cost functions -/

/-- Worker of `HalfStitch::_calculate_cost_symbolic` (stitch.rs:155-161):
fold `add_distance` over `windows(2)`; an arithmetic-overflow panic inside
`add_distance` propagates as `none`. -/
def HalfStitch.cost_symbolic_go (s : SymbolicSum) : List HalfStitch → Option SymbolicSum
  | a :: b :: rest =>
    match s.add_distance a.get_end_location b.start with
    | some s' => HalfStitch.cost_symbolic_go s' (b :: rest)
    | none => none
  | _ => some s

/-- Embeds `HalfStitch::_calculate_cost_symbolic` (stitch.rs:155-161), starting
from `SymbolicSum::default()`. -/
def HalfStitch.calculate_cost_symbolic (stitches : List HalfStitch) : Option SymbolicSum :=
  HalfStitch.cost_symbolic_go ⟨0, []⟩ stitches

/-- Embeds `HalfStitch::check_valid_sequence_symbolic` (stitch.rs:118-123):
run the validity check first; only on success compute and render the symbolic
cost.  The outer `Option` carries the (astronomically remote) overflow panic of
the cost computation; the validity check itself never panics. -/
def HalfStitch.check_valid_sequence_symbolic (stitches : List HalfStitch) :
    Option (Except (GridCell × GridCell) String) :=
  match HalfStitch.check_seq stitches with
  | .error e => some (.error e)
  | .ok _ => (HalfStitch.calculate_cost_symbolic stitches).map fun d => .ok d.render

/-- Embeds `HalfStitch::check_valid_sequence_float` (stitch.rs:108-116): run
the validity check first; only on success produce the formatted float cost.
The IEEE-754 cost value and its 4-decimal formatting lie outside an integer
embedding, so the string produced on the success path is abstracted as a
function parameter; the claims about this function concern only the
check-first/error-propagation structure, which is independent of `cost`. -/
def HalfStitch.check_valid_sequence_float (cost : List HalfStitch → String)
    (stitches : List HalfStitch) : Except (GridCell × GridCell) String :=
  match HalfStitch.check_seq stitches with
  | .error e => .error e
  | .ok _ => .ok (cost stitches)

/-! ### line_segment.rs -/

/-- Embeds `LineSegment` (line_segment.rs:5-10).  The source field `end` is a
Lean keyword and is rendered `stop`. -/
structure LineSegment where
  start : GridCell
  stop : GridCell
  order : Nat
deriving DecidableEq, Repr

/-- Embeds `LineSegment::get_length` (line_segment.rs:23-25): the source floors
the `f64` Euclidean distance to `usize`; for every in-range input that equals
the integer square root of the exact squared distance. -/
def LineSegment.get_length (s : LineSegment) : Nat :=
  Nat.sqrt ((s.stop.x - s.start.x) ^ 2 + (s.stop.y - s.start.y) ^ 2).toNat

/-- Embeds `Axis` (line_segment.rs:12-16). -/
inductive Axis where
  | Horizontal
  | Vertical
deriving DecidableEq, Repr

/-- Embeds `LineSegment::orientation` (line_segment.rs:73-81): the horizontal
test comes first, so a degenerate (zero-length) segment is classified
`Horizontal`. -/
def LineSegment.orientation (s : LineSegment) : Option Axis :=
  if s.start.y = s.stop.y then some .Horizontal
  else if s.start.x = s.stop.x then some .Vertical
  else none

/-- Embeds `LineSegment::overlaps` (line_segment.rs:28-70). -/
def LineSegment.overlaps (s other : LineSegment) : Bool :=
  match s.orientation, other.orientation with
  | some d1, some d2 =>
    if d1 ≠ d2 then false
    else if d1 = Axis.Horizontal then
      if s.start.y ≠ other.start.y then false
      else
        decide (max (min s.start.x s.stop.x) (min other.start.x other.stop.x) <
          min (max s.start.x s.stop.x) (max other.start.x other.stop.x))
    else
      if s.start.x ≠ other.start.x then false
      else
        decide (max (min s.start.y s.stop.y) (min other.start.y other.stop.y) <
          min (max s.start.y s.stop.y) (max other.start.y other.stop.y))
  | _, _ => false

/-! Specification-side counterparts for claim C3 (written from the spec's
words, to be compared with the source's `overlaps`). -/

/-- Spec wording: a horizontal segment (shared `y`). -/
def IsHorizontal (s : LineSegment) : Prop := s.start.y = s.stop.y

/-- Spec wording: a vertical segment (shared `x`). -/
def IsVertical (s : LineSegment) : Prop := s.start.x = s.stop.x

/-- Modelled from the spec (§4.7): two segments overlap iff they share an
orientation, lie on the same line, and their 1D ranges along the varying axis
intersect with strictly positive length. -/
def spec_overlaps (s t : LineSegment) : Prop :=
  (IsHorizontal s ∧ IsHorizontal t ∧ s.start.y = t.start.y ∧
    0 < min (max s.start.x s.stop.x) (max t.start.x t.stop.x) -
      max (min s.start.x s.stop.x) (min t.start.x t.stop.x)) ∨
  (IsVertical s ∧ IsVertical t ∧ s.start.x = t.start.x ∧
    0 < min (max s.start.y s.stop.y) (max t.start.y t.stop.y) -
      max (min s.start.y s.stop.y) (min t.start.y t.stop.y))

/-! ### line_segment_tree.rs -/

/-- Embeds `LineSegmentTreeNode` (line_segment_tree.rs:5-9). -/
inductive LineSegmentTreeNode where
  | mk (line_segment : LineSegment) (children : List LineSegmentTreeNode)

/-- Projection for the `line_segment` field. -/
def LineSegmentTreeNode.line_segment : LineSegmentTreeNode → LineSegment
  | .mk s _ => s

/-- Projection for the `children` field. -/
def LineSegmentTreeNode.children : LineSegmentTreeNode → List LineSegmentTreeNode
  | .mk _ cs => cs

/-- Embeds `Vec::insert(pos, node)`: insert at position `pos` (at the end when
`pos` reaches the length, which is the only out-of-range-of-head case the
source produces). -/
def insert_at : Nat → LineSegmentTreeNode → List LineSegmentTreeNode → List LineSegmentTreeNode
  | 0, nd, l => nd :: l
  | _ + 1, nd, [] => [nd]
  | n + 1, nd, x :: xs => x :: insert_at n nd xs

/-- Length of the segment held at index `i` (only queried in range). -/
def length_at (ns : List LineSegmentTreeNode) (i : Nat) : Nat :=
  ((ns[i]?).map fun n => n.line_segment.get_length).getD 0

/-- Embeds `slice::binary_search_by` as used at line_segment_tree.rs:47-53,
returning the insertion position (the source inserts at the returned position
in both the `Ok` and the `Err` case).  The comparator is the source's
`node.get_length().cmp(&new.get_length())`, whose `Less`/`Greater`/`Equal`
cases are rendered as the two `<` tests.  This is the standard library's
loop: `mid = left + (right - left) / 2`. -/
def binary_search_pos (ns : List LineSegmentTreeNode) (t : Nat) (left right : Nat) : Nat :=
  if _h : left < right then
    let mid := left + (right - left) / 2
    if length_at ns mid < t then binary_search_pos ns t (mid + 1) right
    else if t < length_at ns mid then binary_search_pos ns t left mid
    else mid
  else left
termination_by right - left
decreasing_by
  all_goals omega

mutual

/-- Embeds `LineSegmentTreeNode::insert_segment` (line_segment_tree.rs:33-56):
if some node of `children` overlaps `child`, the first such node absorbs it via
`_prioritise_node_lengths`; otherwise a fresh node is inserted at the position
returned by the binary search over segment lengths. -/
def LineSegmentTreeNode.insert_segment (children : List LineSegmentTreeNode)
    (child : LineSegment) : List LineSegmentTreeNode :=
  if children.any fun n => n.line_segment.overlaps child then
    LineSegmentTreeNode.replace_first_overlap children child
  else
    insert_at (binary_search_pos children child.get_length 0 children.length)
      (.mk child []) children
termination_by (sizeOf children, 1)

/-- The `iter_mut().find(...)` + mutation of `insert_segment`: walk to the
first node whose segment overlaps `child` and replace it by the prioritised
node. -/
def LineSegmentTreeNode.replace_first_overlap :
    List LineSegmentTreeNode → LineSegment → List LineSegmentTreeNode
  | [], _ => []
  | n :: rest, child =>
    if n.line_segment.overlaps child then
      LineSegmentTreeNode.prioritise_node_lengths child n :: rest
    else n :: LineSegmentTreeNode.replace_first_overlap rest child
termination_by ns _ => (sizeOf ns, 0)

/-- Embeds `LineSegmentTreeNode::_prioritise_node_lengths`
(line_segment_tree.rs:22-31): a tie or longer existing node keeps the node's
segment and pushes `child` into its children; a strictly longer `child` is
promoted into the node and the displaced segment is reinserted below. -/
def LineSegmentTreeNode.prioritise_node_lengths (child : LineSegment)
    (parent : LineSegmentTreeNode) : LineSegmentTreeNode :=
  match parent with
  | .mk seg cs =>
    if seg.get_length ≥ child.get_length then
      .mk seg (LineSegmentTreeNode.insert_segment cs child)
    else
      .mk child (LineSegmentTreeNode.insert_segment cs seg)
termination_by (sizeOf parent, 2)

end

/-- Embeds `LineSegmentTree::add_child` (line_segment_tree.rs:69-80): the first
overlapping root absorbs the segment; otherwise a new singleton root is pushed
at the end of the forest. -/
def LineSegmentTree.add_child (root_nodes : List LineSegmentTreeNode)
    (line_segment : LineSegment) : List LineSegmentTreeNode :=
  if root_nodes.any fun n => n.line_segment.overlaps line_segment then
    LineSegmentTreeNode.replace_first_overlap root_nodes line_segment
  else
    root_nodes ++ [.mk line_segment []]

/-- A whole sequence of insertions into an initially empty
`SegmentOverlapTree`. -/
def LineSegmentTree.insert_all (segs : List LineSegment) : List LineSegmentTreeNode :=
  segs.foldl LineSegmentTree.add_child []

mutual

/-- Every segment held in a node's subtree (the node's own segment included). -/
def LineSegmentTreeNode.segs : LineSegmentTreeNode → List LineSegment
  | .mk s cs => s :: LineSegmentTreeNode.segsList cs

/-- Every segment held in a forest. -/
def LineSegmentTreeNode.segsList : List LineSegmentTreeNode → List LineSegment
  | [] => []
  | n :: rest => LineSegmentTreeNode.segs n ++ LineSegmentTreeNode.segsList rest

end

mutual

/-- Every node of a node's subtree (the node itself included). -/
def LineSegmentTreeNode.subnodes : LineSegmentTreeNode → List LineSegmentTreeNode
  | .mk s cs => .mk s cs :: LineSegmentTreeNode.subnodesList cs

/-- Every node of a forest. -/
def LineSegmentTreeNode.subnodesList : List LineSegmentTreeNode → List LineSegmentTreeNode
  | [] => []
  | n :: rest => LineSegmentTreeNode.subnodes n ++ LineSegmentTreeNode.subnodesList rest

end

/-- The chain produced by repeatedly inserting one segment: `chain_node s k` is
a node holding `s` above `k` further nested copies of `s`. -/
def chain_node (s : LineSegment) : Nat → LineSegmentTreeNode
  | 0 => .mk s []
  | k + 1 => .mk s [chain_node s k]

/-- An axis-aligned line of the lattice: an axis together with the fixed
coordinate on the other axis. -/
def OnLine (L : Axis × Int) (s : LineSegment) : Prop :=
  match L.1 with
  | .Horizontal => s.start.y = L.2 ∧ s.stop.y = L.2
  | .Vertical => s.start.x = L.2 ∧ s.stop.x = L.2

instance (L : Axis × Int) (s : LineSegment) : Decidable (OnLine L s) :=
  match L with
  | (.Horizontal, k) => (inferInstance : Decidable (s.start.y = k ∧ s.stop.y = k))
  | (.Vertical, k) => (inferInstance : Decidable (s.start.x = k ∧ s.stop.x = k))

/-! Specification-side counterpart for claim C8. -/

/-- Modelled from the spec (§3): the corner order the spec asserts to be the
cyclic arrangement. -/
def spec_corner_cycle : List StartingStitchCorner :=
  [.BottomLeft, .BottomRight, .TopLeft, .TopRight]

/-- The declaration-order cycle actually used by the source's discriminants. -/
def decl_corner_cycle : List StartingStitchCorner :=
  [.BottomLeft, .TopLeft, .TopRight, .BottomRight]

/-- Position of a corner in a corner list (corners are distinct in both
cycles, so this is unambiguous). -/
def corner_index (l : List StartingStitchCorner) (c : StartingStitchCorner) : Nat :=
  l.findIdx (· == c)

/-- The corner two steps away from `c` in the cyclic order given by `l`. -/
def two_steps_in (l : List StartingStitchCorner) (c : StartingStitchCorner) :
    Option StartingStitchCorner :=
  l[(corner_index l c + 2) % l.length]?

/-! ## Helper lemmas -/

theorem GridCell.add_def (a b : GridCell) : a + b = ⟨a.x + b.x, a.y + b.y⟩ := rfl

theorem GridCell.sub_def (a b : GridCell) : a - b = ⟨a.x - b.x, a.y - b.y⟩ := rfl

theorem nat_sqrt_eval {n q : Nat} (h1 : q * q ≤ n) (h2 : n < (q + 1) * (q + 1)) :
    Nat.sqrt n = q :=
  Nat.le_antisymm (Nat.le_of_lt_succ (Nat.sqrt_lt.2 h2)) (Nat.le_sqrt.2 h1)

/-- Both cost entry points always call the validity check first; the check
itself is structural, so `add_distance` on equal points reduces by
computation.  The distance-0 decomposition is the crux: the factorisation of 0
is empty, so `decompose 0 = [(1, 1)]` and the constant grows by one. -/
theorem add_distance_self_eq (s : SymbolicSum) (p : GridCell) :
    s.add_distance p p = some ⟨s.constant + 1, s.square_root_terms⟩ := by
  have h0 : p.euclidean_distance_squared p = some 0 := by
    simp [GridCell.euclidean_distance_squared, checked_pow_2, isizeMax]
  have hd : SymbolicSum.decompose 0 = [(1, 1)] := by
    simp [SymbolicSum.decompose, factor_counts, factorization_run]
  simp [SymbolicSum.add_distance, h0, hd, SymbolicSum.add_decomposition]

/-! ## Claim C8 -/

/-- Claim C8, counterexample: the spec's asserted cyclic order
(BottomLeft, BottomRight, TopLeft, TopRight) makes the corner two steps away
from BottomLeft equal TopLeft, but the source's `get_opposite_corner` returns
TopRight for BottomLeft. -/
theorem c8_counterexample :
    two_steps_in spec_corner_cycle .BottomLeft ≠
      some (StartingStitchCorner.get_opposite_corner .BottomLeft) := by
  decide

/-- Claim C8, amended: `get_opposite_corner` returns the corner two steps away
in the cyclic order BottomLeft, TopLeft, TopRight, BottomRight — the
declaration (discriminant) order of the source enum — which is the diagonally
opposite corner of the unit square. -/
theorem c8_opposite_two_steps_in_decl_cycle (c : StartingStitchCorner) :
    two_steps_in decl_corner_cycle c = some c.get_opposite_corner := by
  cases c <;> decide

/-! ## Claim C9 -/

/-- Claim C9, counterexample: with `a = (0,0)` and `b = (2^31, 2^31)` both
squared components fit the 64-bit signed width, yet the computation fails (the
unchecked final addition overflows), so the claim that the exact value is
returned whenever both squares fit — failure arising only from an overflowing
square — is false. -/
theorem c9_counterexample :
    GridCell.euclidean_distance_squared ⟨0, 0⟩ ⟨2 ^ 31, 2 ^ 31⟩ = none ∧
    ((2 ^ 31 : Int) - 0) ^ 2 ≤ isizeMax := by
  constructor
  · decide
  · decide

/-- Claim C9, amended: `euclidean_distance_squared` returns the exact integer
`(bx-ax)^2 + (by-ay)^2` exactly when both squares and also their sum fit the
signed 64-bit width, and fails (the source panics, there is no recoverable
`ArithmeticOverflow` error value) exactly otherwise; the result is never
silently clamped. -/
theorem c9_euclidean_distance_squared_characterisation (a b : GridCell) :
    (GridCell.euclidean_distance_squared a b =
        some ((b.x - a.x) ^ 2 + (b.y - a.y) ^ 2).toNat ↔
      (b.x - a.x) ^ 2 ≤ isizeMax ∧ (b.y - a.y) ^ 2 ≤ isizeMax ∧
        (b.x - a.x) ^ 2 + (b.y - a.y) ^ 2 ≤ isizeMax) ∧
    (GridCell.euclidean_distance_squared a b = none ↔
      ¬ ((b.x - a.x) ^ 2 ≤ isizeMax ∧ (b.y - a.y) ^ 2 ≤ isizeMax ∧
        (b.x - a.x) ^ 2 + (b.y - a.y) ^ 2 ≤ isizeMax)) := by
  unfold GridCell.euclidean_distance_squared checked_pow_2
  by_cases h1 : (b.x - a.x) ^ 2 ≤ isizeMax <;>
    by_cases h2 : (b.y - a.y) ^ 2 ≤ isizeMax <;>
      by_cases h3 : (b.x - a.x) ^ 2 + (b.y - a.y) ^ 2 ≤ isizeMax <;>
        simp [h1, h2, h3]

/-! ## Claim C10 -/

/-- Claim C10, counterexample: adding the distance from a point to itself does
not leave the sum unchanged — the constant grows by 1, because the crate
returns an empty factorisation for 0, which `decompose` turns into the entry
`(1, 1)`. -/
theorem c10_counterexample :
    SymbolicSum.add_distance ⟨0, []⟩ ⟨1, 1⟩ ⟨1, 1⟩ ≠ some ⟨0, []⟩ := by
  rw [add_distance_self_eq]
  decide

/-- Claim C10, amended: for every lattice point `p` and every starting state,
`add_distance(p, p)` adds exactly 1 to the constant and leaves the radical
terms untouched. -/
theorem c10_add_distance_self (s : SymbolicSum) (p : GridCell) :
    s.add_distance p p = some ⟨s.constant + 1, s.square_root_terms⟩ :=
  add_distance_self_eq s p

/-! ## Claim C7 -/

unseal Nat.sqrt.iter LineSegmentTreeNode.insert_segment LineSegmentTreeNode.replace_first_overlap LineSegmentTreeNode.prioritise_node_lengths binary_search_pos in
/-- Claim C7 (a code bug): the source's comments promise children sorted in
descending length order with equal lengths appended after existing ones, but
the binary-search comparator is not reversed, so the children list actually
ends up in ascending length order.  Inserting a length-10 root segment
(0,0)-(10,0) and then the non-overlapping children (0,0)-(2,0) (length 2) and
(3,0)-(8,0) (length 5) leaves the children ordered `[2, 5]` — ascending, where
both the spec and the source's own comment require `[5, 2]`. -/
theorem c7_children_ascending_bug :
    ((LineSegmentTree.insert_all
        [⟨⟨0, 0⟩, ⟨10, 0⟩, 0⟩, ⟨⟨0, 0⟩, ⟨2, 0⟩, 0⟩, ⟨⟨3, 0⟩, ⟨8, 0⟩, 0⟩]).map
      fun nd => nd.children.map fun c => c.line_segment.get_length) = [[2, 5]] ∧
    ¬ List.Sorted (· ≥ ·) [2, 5] := by
  constructor
  · decide
  · decide

/-! ## Claim C5, counterexample -/

unseal Nat.sqrt.iter LineSegmentTreeNode.insert_segment LineSegmentTreeNode.replace_first_overlap LineSegmentTreeNode.prioritise_node_lengths binary_search_pos in
/-- Claim C5, counterexample: inserting the same positive-length vertical
segment three times does not produce a root with `3 - 1 = 2` children; each
duplicate is nested under the previous one, so the root has exactly one
child. -/
theorem c5_counterexample :
    ¬ ((LineSegmentTree.insert_all
          (List.replicate 3 (⟨⟨0, 0⟩, ⟨0, 1⟩, 0⟩ : LineSegment))).map
        fun nd => nd.children.length) = [3 - 1] := by
  decide

/-! ## Claim C6, counterexample -/

unseal Nat.sqrt.iter LineSegmentTreeNode.insert_segment LineSegmentTreeNode.replace_first_overlap LineSegmentTreeNode.prioritise_node_lengths binary_search_pos in
/-- Claim C6, counterexample: after inserting (0,0)-(10,0), (0,0)-(2,0) and
then the longer (5,0)-(20,0), the promotion makes (5,0)-(20,0) the root while
(0,0)-(2,0) stays in its subtree, and the root's segment does not overlap that
grandchild — so a node's segment need not overlap every segment of its
subtree. -/
theorem c6_counterexample :
    ¬ ∀ R ∈ LineSegmentTree.insert_all
        [⟨⟨0, 0⟩, ⟨10, 0⟩, 0⟩, ⟨⟨0, 0⟩, ⟨2, 0⟩, 0⟩, ⟨⟨5, 0⟩, ⟨20, 0⟩, 0⟩],
      ∀ N ∈ R.subnodes, ∀ t ∈ N.segs, N.line_segment.overlaps t = true := by
  decide

/-! ## Claim C2 -/

theorem convert_go_length (f s : StartingStitchCorner) :
    ∀ (cells seen : List GridCell),
      (HalfStitch.convert_go f s cells seen).length = cells.length := by
  intro cells
  induction cells with
  | nil => intro seen; simp [HalfStitch.convert_go]
  | cons cell rest ih =>
    intro seen
    by_cases h : cell ∈ seen <;> simp [HalfStitch.convert_go, h, ih]

theorem convert_go_get (f s : StartingStitchCorner) :
    ∀ (cells seen : List GridCell) (i : Nat),
      (HalfStitch.convert_go f s cells seen)[i]? =
        (cells[i]?).map fun cell =>
          if cell ∈ seen ∨ cell ∈ cells.take i then
            ⟨cell + s.get_offset_from_bottom_left, s⟩
          else
            ⟨cell + f.get_offset_from_bottom_left, f⟩ := by
  intro cells
  induction cells with
  | nil => intro seen i; simp [HalfStitch.convert_go]
  | cons cell rest ih =>
    intro seen i
    by_cases h : cell ∈ seen
    · rw [HalfStitch.convert_go, if_pos h]
      cases i with
      | zero => simp [h]
      | succ j =>
        simp only [List.getElem?_cons_succ, List.take_succ_cons]
        rw [ih]
        cases hj : rest[j]? with
        | none => simp
        | some cj =>
          simp only [Option.map_some']
          have : (cj ∈ seen ∨ cj ∈ rest.take j) ↔
              (cj ∈ seen ∨ cj ∈ cell :: rest.take j) := by
            constructor
            · rintro (h1 | h1)
              · exact Or.inl h1
              · exact Or.inr (List.mem_cons_of_mem _ h1)
            · rintro (h1 | h1)
              · exact Or.inl h1
              · rcases List.mem_cons.1 h1 with h2 | h2
                · exact Or.inl (h2 ▸ h)
                · exact Or.inr h2
          exact congrArg some (if_congr this rfl rfl)
    · rw [HalfStitch.convert_go, if_neg h]
      cases i with
      | zero => simp [h]
      | succ j =>
        simp only [List.getElem?_cons_succ, List.take_succ_cons]
        rw [ih]
        cases hj : rest[j]? with
        | none => simp
        | some cj =>
          simp only [Option.map_some']
          have : (cj ∈ cell :: seen ∨ cj ∈ rest.take j) ↔
              (cj ∈ seen ∨ cj ∈ cell :: rest.take j) := by
            constructor
            · rintro (h1 | h1)
              · rcases List.mem_cons.1 h1 with h2 | h2
                · exact Or.inr (h2 ▸ List.mem_cons_self _ _)
                · exact Or.inl h2
              · exact Or.inr (List.mem_cons_of_mem _ h1)
            · rintro (h1 | h1)
              · exact Or.inl (List.mem_cons_of_mem _ h1)
              · rcases List.mem_cons.1 h1 with h2 | h2
                · exact Or.inl (h2 ▸ List.mem_cons_self _ _)
                · exact Or.inr h2
          exact congrArg some (if_congr this rfl rfl)

/-- Claim C2, confirmed: the built stitch sequence has one half stitch per
input cell in input order; an input cell whose value has not occurred earlier
yields a stitch anchored at `cell + firstCorner.offset()` carrying the first
corner, and a cell that already occurred yields a stitch anchored at
`cell + secondCorner.offset()` carrying the second corner. -/
theorem c2_convert_grid_cells (cells : List GridCell)
    (firstCorner secondCorner : StartingStitchCorner) :
    (HalfStitch.convert_grid_cells cells firstCorner secondCorner).length = cells.length ∧
    ∀ i : Nat,
      (HalfStitch.convert_grid_cells cells firstCorner secondCorner)[i]? =
        (cells[i]?).map fun cell =>
          if cell ∈ cells.take i then
            ⟨cell + secondCorner.get_offset_from_bottom_left, secondCorner⟩
          else
            ⟨cell + firstCorner.get_offset_from_bottom_left, firstCorner⟩ := by
  constructor
  · exact convert_go_length _ _ cells []
  · intro i
    rw [HalfStitch.convert_grid_cells, convert_go_get]
    cases hj : cells[i]? with
    | none => simp
    | some cj => simp

/-! ## Claim C1 -/

theorem check_seq_ok_iff :
    ∀ st : List HalfStitch,
      HalfStitch.check_seq st = .ok () ↔
        ∀ i a b, st[i]? = some a → st[i + 1]? = some b →
          a.get_end_location ≠ b.start
  | [] => by simp [HalfStitch.check_seq]
  | [x] => by simp [HalfStitch.check_seq]
  | a :: b :: rest => by
    by_cases hbad : a.get_end_location = b.start
    · rw [HalfStitch.check_seq, if_pos hbad]
      constructor
      · intro h; exact absurd h (by simp)
      · intro hR; exact absurd hbad (hR 0 a b (by simp) (by simp))
    · rw [HalfStitch.check_seq, if_neg hbad, check_seq_ok_iff (b :: rest)]
      constructor
      · intro h i a' b' h1 h2
        cases i with
        | zero =>
          simp only [List.getElem?_cons_zero, Option.some.injEq] at h1
          simp only [List.getElem?_cons_succ, List.getElem?_cons_zero,
            Option.some.injEq] at h2
          subst h1; subst h2
          exact hbad
        | succ j =>
          rw [List.getElem?_cons_succ] at h1
          rw [List.getElem?_cons_succ] at h2
          exact h j a' b' h1 h2
      · intro h i a' b' h1 h2
        exact h (i + 1) a' b' (by simpa using h1) (by simpa using h2)

theorem check_seq_first_error :
    ∀ (st : List HalfStitch) (k : Nat) (a b : HalfStitch),
      st[k]? = some a → st[k + 1]? = some b →
      a.get_end_location = b.start →
      (∀ j a' b', j < k → st[j]? = some a' → st[j + 1]? = some b' →
        a'.get_end_location ≠ b'.start) →
      HalfStitch.check_seq st = .error (a.start, b.start)
  | [], k, a, b => by simp
  | [x], k, a, b => by
    intro _ h2
    rw [List.getElem?_cons_succ, List.getElem?_nil] at h2
    exact absurd h2 (by simp)
  | x :: y :: rest, k, a, b => by
    intro h1 h2 hbad hmin
    by_cases h0 : x.get_end_location = y.start
    · rcases Nat.eq_zero_or_pos k with hk | hk
      · subst hk
        simp only [List.getElem?_cons_zero, Option.some.injEq] at h1
        simp only [List.getElem?_cons_succ, List.getElem?_cons_zero,
          Option.some.injEq] at h2
        subst h1; subst h2
        rw [HalfStitch.check_seq, if_pos h0]
      · exact absurd h0 (hmin 0 x y hk (by simp) (by simp))
    · cases k with
      | zero =>
        simp only [List.getElem?_cons_zero, Option.some.injEq] at h1
        simp only [List.getElem?_cons_succ, List.getElem?_cons_zero,
          Option.some.injEq] at h2
        subst h1; subst h2
        exact absurd hbad h0
      | succ j =>
        rw [List.getElem?_cons_succ] at h1
        rw [List.getElem?_cons_succ] at h2
        rw [HalfStitch.check_seq, if_neg h0]
        refine check_seq_first_error (y :: rest) j a b h1 h2 hbad ?_
        intro j' a' b' hj' g1 g2
        exact hmin (j' + 1) a' b' (Nat.succ_lt_succ hj')
          (by simpa using g1) (by simpa using g2)

/-- Claim C1, confirmed: the validity check succeeds exactly when no adjacent
pair has the previous end location equal to the next start; on the first
offending pair (in sequence order) it stops with `(prev.start, curr.start)`;
both cost entry points run the check first and propagate its error unchanged,
and produce a cost string only on the valid path. -/
theorem c1_validity_and_cost (stitches : List HalfStitch) :
    (HalfStitch.check_seq stitches = .ok () ↔
      ∀ i a b, stitches[i]? = some a → stitches[i + 1]? = some b →
        a.get_end_location ≠ b.start) ∧
    (∀ k a b, stitches[k]? = some a → stitches[k + 1]? = some b →
      a.get_end_location = b.start →
      (∀ j a' b', j < k → stitches[j]? = some a' → stitches[j + 1]? = some b' →
        a'.get_end_location ≠ b'.start) →
      HalfStitch.check_seq stitches = .error (a.start, b.start)) ∧
    (∀ cost e, HalfStitch.check_seq stitches = .error e →
      HalfStitch.check_valid_sequence_float cost stitches = .error e) ∧
    (∀ cost, HalfStitch.check_seq stitches = .ok () →
      HalfStitch.check_valid_sequence_float cost stitches = .ok (cost stitches)) ∧
    (∀ e, HalfStitch.check_seq stitches = .error e →
      HalfStitch.check_valid_sequence_symbolic stitches = some (.error e)) ∧
    (HalfStitch.check_seq stitches = .ok () →
      HalfStitch.check_valid_sequence_symbolic stitches =
        (HalfStitch.calculate_cost_symbolic stitches).map fun d => Except.ok d.render) := by
  refine ⟨check_seq_ok_iff stitches, check_seq_first_error stitches, ?_, ?_, ?_, ?_⟩
  · intro cost e h
    simp [HalfStitch.check_valid_sequence_float, h]
  · intro cost h
    simp [HalfStitch.check_valid_sequence_float, h]
  · intro e h
    simp [HalfStitch.check_valid_sequence_symbolic, h]
  · intro h
    simp [HalfStitch.check_valid_sequence_symbolic, h]

/-- Claim C1, witness: a concrete sequence whose first offending pair sits at
index 1; the check reports `((5,5), (6,6))` and both cost functions propagate
it; a concrete valid sequence yields the cost string. -/
theorem c1_witness :
    HalfStitch.check_seq
        [⟨⟨0, 0⟩, .BottomLeft⟩, ⟨⟨5, 5⟩, .BottomLeft⟩, ⟨⟨6, 6⟩, .BottomLeft⟩] =
      .error (⟨5, 5⟩, ⟨6, 6⟩) ∧
    HalfStitch.check_valid_sequence_float (fun _ => "3.1623")
        [⟨⟨0, 0⟩, .BottomLeft⟩, ⟨⟨5, 5⟩, .BottomLeft⟩, ⟨⟨6, 6⟩, .BottomLeft⟩] =
      .error (⟨5, 5⟩, ⟨6, 6⟩) ∧
    HalfStitch.check_valid_sequence_symbolic
        [⟨⟨0, 0⟩, .BottomLeft⟩, ⟨⟨5, 5⟩, .BottomLeft⟩, ⟨⟨6, 6⟩, .BottomLeft⟩] =
      some (.error (⟨5, 5⟩, ⟨6, 6⟩)) ∧
    HalfStitch.check_valid_sequence_float (fun _ => "0.0000")
        [⟨⟨0, 0⟩, .BottomLeft⟩] = .ok "0.0000" := by
  have herr : HalfStitch.check_seq
      [⟨⟨0, 0⟩, .BottomLeft⟩, ⟨⟨5, 5⟩, .BottomLeft⟩, ⟨⟨6, 6⟩, .BottomLeft⟩] =
      .error (⟨5, 5⟩, ⟨6, 6⟩) := by
    have := (c1_validity_and_cost
        [⟨⟨0, 0⟩, .BottomLeft⟩, ⟨⟨5, 5⟩, .BottomLeft⟩, ⟨⟨6, 6⟩, .BottomLeft⟩]).2.1
        1 ⟨⟨5, 5⟩, .BottomLeft⟩ ⟨⟨6, 6⟩, .BottomLeft⟩ (by decide) (by decide) (by decide) ?_
    · exact this
    · intro j a' b' hj h1 h2
      have hj0 : j = 0 := by omega
      subst hj0
      injection h1 with h1'
      injection h2 with h2'
      subst h1'; subst h2'
      decide
  refine ⟨herr, ?_, ?_, ?_⟩
  · exact (c1_validity_and_cost _).2.2.1 _ _ herr
  · exact (c1_validity_and_cost _).2.2.2.2.1 _ herr
  · exact (c1_validity_and_cost _).2.2.2.1 _ rfl

/-! ## Claim C3 -/

theorem overlaps_iff_spec (s t : LineSegment) : s.overlaps t = true ↔ spec_overlaps s t := by
  unfold LineSegment.overlaps LineSegment.orientation spec_overlaps IsHorizontal IsVertical
  by_cases hsy : s.start.y = s.stop.y <;> by_cases hty : t.start.y = t.stop.y <;>
    by_cases hsx : s.start.x = s.stop.x <;> by_cases htx : t.start.x = t.stop.x <;>
      simp [hsy, hty, hsx, htx]

theorem spec_overlaps_symm (s t : LineSegment) : spec_overlaps s t ↔ spec_overlaps t s := by
  unfold spec_overlaps IsHorizontal IsVertical
  constructor <;>
    · rintro (⟨h1, h2, h3, h4⟩ | ⟨h1, h2, h3, h4⟩)
      · exact Or.inl ⟨h2, h1, h3.symm, by omega⟩
      · exact Or.inr ⟨h2, h1, h3.symm, by omega⟩

/-- Claim C3, confirmed: `overlaps` holds exactly when both segments share an
orientation, lie on the same line, and their 1D ranges meet with strictly
positive length; it is symmetric; a degenerate (point) segment and a diagonal
segment overlap nothing; collinear segments that merely touch at one
coordinate (such as `[0,1]` and `[1,2]`) do not overlap. -/
theorem c3_overlaps_characterisation (s t : LineSegment) :
    (s.overlaps t = true ↔ spec_overlaps s t) ∧
    s.overlaps t = t.overlaps s ∧
    (s.start = s.stop → s.overlaps t = false ∧ t.overlaps s = false) ∧
    (s.start.x ≠ s.stop.x ∧ s.start.y ≠ s.stop.y →
      s.overlaps t = false ∧ t.overlaps s = false) ∧
    (IsHorizontal s → IsHorizontal t → s.start.y = t.start.y →
      max s.start.x s.stop.x = min t.start.x t.stop.x → s.overlaps t = false) ∧
    (IsVertical s → IsVertical t → s.start.x = t.start.x →
      max s.start.y s.stop.y = min t.start.y t.stop.y → s.overlaps t = false) := by
  have hiff := overlaps_iff_spec s t
  have hiff' := overlaps_iff_spec t s
  have hsymm := spec_overlaps_symm s t
  refine ⟨hiff, ?_, ?_, ?_, ?_, ?_⟩
  · cases hb : s.overlaps t <;> cases hb' : t.overlaps s
    · rfl
    · exact absurd (hiff.2 (hsymm.2 (hiff'.1 hb'))) (by simp [hb])
    · exact absurd (hiff'.2 (hsymm.1 (hiff.1 hb))) (by simp [hb'])
    · rfl
  · intro hdeg
    constructor
    · cases hb : s.overlaps t
      · rfl
      · rcases hiff.1 hb with ⟨_, _, _, h4⟩ | ⟨_, _, _, h4⟩ <;>
          · rw [hdeg] at h4; omega
    · cases hb : t.overlaps s
      · rfl
      · rcases hiff'.1 hb with ⟨_, _, _, h4⟩ | ⟨_, _, _, h4⟩ <;>
          · rw [hdeg] at h4; omega
  · rintro ⟨hdx, hdy⟩
    constructor
    · cases hb : s.overlaps t
      · rfl
      · rcases hiff.1 hb with ⟨h1, _, _, _⟩ | ⟨h1, _, _, _⟩
        · exact absurd h1 hdy
        · exact absurd h1 hdx
    · cases hb : t.overlaps s
      · rfl
      · rcases hiff'.1 hb with ⟨_, h2, _, _⟩ | ⟨_, h2, _, _⟩
        · exact absurd h2 hdy
        · exact absurd h2 hdx
  · intro h1 h2 h3 htouch
    cases hb : s.overlaps t
    · rfl
    · rcases hiff.1 hb with ⟨_, _, _, h4⟩ | ⟨hv, _, _, h4⟩
      · omega
      · unfold IsHorizontal at h1
        unfold IsVertical at hv
        omega
  · intro h1 h2 h3 htouch
    cases hb : s.overlaps t
    · rfl
    · rcases hiff.1 hb with ⟨hh, _, _, h4⟩ | ⟨_, _, _, h4⟩
      · unfold IsVertical at h1
        unfold IsHorizontal at hh
        omega
      · omega

/-- Claim C3, witness: concrete instantiations — the same vertical segment
overlaps itself, overlap is symmetric for `[0,5]` versus `[0,1]` on the x-axis,
a point overlaps nothing, a diagonal overlaps nothing, and `[0,1]`/`[1,2]`
touching at 1 do not overlap. -/
theorem c3_witness :
    (LineSegment.overlaps ⟨⟨0, 0⟩, ⟨0, 5⟩, 0⟩ ⟨⟨0, 0⟩, ⟨0, 1⟩, 0⟩ = true ↔
      spec_overlaps ⟨⟨0, 0⟩, ⟨0, 5⟩, 0⟩ ⟨⟨0, 0⟩, ⟨0, 1⟩, 0⟩) ∧
    (LineSegment.overlaps ⟨⟨2, 2⟩, ⟨2, 2⟩, 0⟩ ⟨⟨0, 2⟩, ⟨9, 2⟩, 0⟩ = false ∧
      LineSegment.overlaps ⟨⟨0, 2⟩, ⟨9, 2⟩, 0⟩ ⟨⟨2, 2⟩, ⟨2, 2⟩, 0⟩ = false) ∧
    (LineSegment.overlaps ⟨⟨0, 0⟩, ⟨3, 4⟩, 0⟩ ⟨⟨0, 0⟩, ⟨3, 0⟩, 0⟩ = false ∧
      LineSegment.overlaps ⟨⟨0, 0⟩, ⟨3, 0⟩, 0⟩ ⟨⟨0, 0⟩, ⟨3, 4⟩, 0⟩ = false) ∧
    LineSegment.overlaps ⟨⟨0, 7⟩, ⟨1, 7⟩, 0⟩ ⟨⟨1, 7⟩, ⟨2, 7⟩, 0⟩ = false := by
  refine ⟨(c3_overlaps_characterisation _ _).1, ?_, ?_, ?_⟩
  · exact (c3_overlaps_characterisation ⟨⟨2, 2⟩, ⟨2, 2⟩, 0⟩ ⟨⟨0, 2⟩, ⟨9, 2⟩, 0⟩).2.2.1 (by decide)
  · exact (c3_overlaps_characterisation ⟨⟨0, 0⟩, ⟨3, 4⟩, 0⟩ ⟨⟨0, 0⟩, ⟨3, 0⟩, 0⟩).2.2.2.1 (by decide)
  · exact (c3_overlaps_characterisation ⟨⟨0, 7⟩, ⟨1, 7⟩, 0⟩ ⟨⟨1, 7⟩, ⟨2, 7⟩, 0⟩).2.2.2.2.1
      rfl rfl rfl (by decide)

/-! ## Claim C5 -/

theorem overlaps_self (s : LineSegment)
    (hpos : (s.start.y = s.stop.y ∧ s.start.x ≠ s.stop.x) ∨
      (s.start.x = s.stop.x ∧ s.start.y ≠ s.stop.y)) :
    s.overlaps s = true := by
  rw [overlaps_iff_spec]
  unfold spec_overlaps IsHorizontal IsVertical
  rcases hpos with ⟨h1, h2⟩ | ⟨h1, h2⟩
  · exact Or.inl ⟨h1, h1, rfl, by omega⟩
  · exact Or.inr ⟨h1, h1, rfl, by omega⟩

theorem chain_node_line_segment (s : LineSegment) (k : Nat) :
    (chain_node s k).line_segment = s := by
  cases k <;> rfl

theorem insert_segment_overlap (ns : List LineSegmentTreeNode) (c : LineSegment)
    (h : (ns.any fun n => n.line_segment.overlaps c) = true) :
    LineSegmentTreeNode.insert_segment ns c = LineSegmentTreeNode.replace_first_overlap ns c := by
  rw [LineSegmentTreeNode.insert_segment.eq_def, if_pos h]

theorem insert_segment_no_overlap (ns : List LineSegmentTreeNode) (c : LineSegment)
    (h : (ns.any fun n => n.line_segment.overlaps c) = false) :
    LineSegmentTreeNode.insert_segment ns c =
      insert_at (binary_search_pos ns c.get_length 0 ns.length) (.mk c []) ns := by
  rw [LineSegmentTreeNode.insert_segment.eq_def, if_neg (by simp [h])]

theorem replace_first_overlap_nil (c : LineSegment) :
    LineSegmentTreeNode.replace_first_overlap [] c = [] := by
  rw [LineSegmentTreeNode.replace_first_overlap.eq_def]

theorem replace_first_overlap_cons (n : LineSegmentTreeNode) (ns : List LineSegmentTreeNode)
    (c : LineSegment) :
    LineSegmentTreeNode.replace_first_overlap (n :: ns) c =
      if n.line_segment.overlaps c then
        LineSegmentTreeNode.prioritise_node_lengths c n :: ns
      else n :: LineSegmentTreeNode.replace_first_overlap ns c := by
  rw [LineSegmentTreeNode.replace_first_overlap.eq_def]

theorem prioritise_eq (c : LineSegment) (seg : LineSegment) (cs : List LineSegmentTreeNode) :
    LineSegmentTreeNode.prioritise_node_lengths c (.mk seg cs) =
      if seg.get_length ≥ c.get_length then .mk seg (LineSegmentTreeNode.insert_segment cs c)
      else .mk c (LineSegmentTreeNode.insert_segment cs seg) := by
  rw [LineSegmentTreeNode.prioritise_node_lengths.eq_def]

theorem insert_segment_nil (c : LineSegment) :
    LineSegmentTreeNode.insert_segment [] c = [.mk c []] := by
  rw [insert_segment_no_overlap [] c (by simp), binary_search_pos.eq_def]
  simp [insert_at]

theorem prioritise_chain (s : LineSegment) (hov : s.overlaps s = true) :
    ∀ k, LineSegmentTreeNode.prioritise_node_lengths s (chain_node s k) = chain_node s (k + 1)
  | 0 => by
    rw [chain_node, prioritise_eq, if_pos (le_refl _), insert_segment_nil]
    rfl
  | k + 1 => by
    have ih := prioritise_chain s hov k
    rw [chain_node, prioritise_eq, if_pos (le_refl _),
      insert_segment_overlap _ _ (by simp [chain_node_line_segment, hov]),
      replace_first_overlap_cons,
      if_pos (by rw [chain_node_line_segment]; exact hov), ih]
    rfl

theorem add_child_chain (s : LineSegment) (hov : s.overlaps s = true) (k : Nat) :
    LineSegmentTree.add_child [chain_node s k] s = [chain_node s (k + 1)] := by
  unfold LineSegmentTree.add_child
  rw [if_pos (by simp [chain_node_line_segment, hov]),
    replace_first_overlap_cons,
    if_pos (by rw [chain_node_line_segment]; exact hov),
    prioritise_chain s hov k]

theorem foldl_add_child_chain (s : LineSegment) (hov : s.overlaps s = true) :
    ∀ (m k : Nat),
      List.foldl LineSegmentTree.add_child [chain_node s k] (List.replicate m s) =
        [chain_node s (k + m)] := by
  intro m
  induction m with
  | zero => intro k; rfl
  | succ m ih =>
    intro k
    rw [List.replicate_succ, List.foldl_cons, add_child_chain s hov k, ih (k + 1)]
    congr 2
    omega

/-- Claim C5, amended: inserting the same positive-length orthogonal segment
`n ≥ 1` times into an empty tree yields a single root holding the segment
whose subtree is a chain of `n` nodes, each holding an equal duplicate and
each having exactly one child except the deepest; no promotion ever occurs
because the length tie favours the existing node.  (The original claim's
`n - 1` children of the root is wrong for `n ≥ 3`.) -/
theorem c5_duplicate_insert_chain (s : LineSegment) (n : Nat)
    (hpos : (s.start.y = s.stop.y ∧ s.start.x ≠ s.stop.x) ∨
      (s.start.x = s.stop.x ∧ s.start.y ≠ s.stop.y))
    (hn : 1 ≤ n) :
    LineSegmentTree.insert_all (List.replicate n s) = [chain_node s (n - 1)] := by
  have hov := overlaps_self s hpos
  obtain ⟨m, rfl⟩ : ∃ m, n = m + 1 := ⟨n - 1, by omega⟩
  rw [LineSegmentTree.insert_all, List.replicate_succ, List.foldl_cons]
  have h0 : LineSegmentTree.add_child [] s = [chain_node s 0] := rfl
  rw [h0, foldl_add_child_chain s hov m 0]
  congr 2
  omega

/-- Claim C5, witness: three insertions of the unit vertical segment produce
the two-deep chain. -/
theorem c5_chain_witness :
    LineSegmentTree.insert_all (List.replicate 3 (⟨⟨0, 0⟩, ⟨0, 1⟩, 0⟩ : LineSegment)) =
      [chain_node ⟨⟨0, 0⟩, ⟨0, 1⟩, 0⟩ 2] :=
  c5_duplicate_insert_chain ⟨⟨0, 0⟩, ⟨0, 1⟩, 0⟩ 3 (Or.inr ⟨rfl, by decide⟩) (by norm_num)

/-! ## Claim C4 -/

theorem list_foldl_pair_split (l : List (Nat × Nat)) :
    ∀ a b : Nat,
      l.foldl (fun sr pe => (sr.1 * pe.1 ^ (pe.2 / 2), sr.2 * if pe.2 % 2 > 0 then pe.1 else 1))
          (a, b) =
        (a * (l.map fun pe => pe.1 ^ (pe.2 / 2)).prod,
         b * (l.map fun pe => if pe.2 % 2 > 0 then pe.1 else 1).prod) := by
  induction l with
  | nil => intro a b; simp
  | cons pe l ih =>
    intro a b
    rw [List.foldl_cons, ih]
    simp only [List.map_cons, List.prod_cons, mul_assoc]

theorem list_prod_map_sq (l : List (Nat × Nat)) (f : Nat × Nat → Nat) :
    (l.map f).prod ^ 2 = (l.map fun x => f x ^ 2).prod := by
  induction l with
  | nil => simp
  | cons a l ih => simp [mul_pow, ih]

theorem list_prod_map_mul (l : List (Nat × Nat)) (f g : Nat × Nat → Nat) :
    (l.map f).prod * (l.map g).prod = (l.map fun x => f x * g x).prod := by
  induction l with
  | nil => simp
  | cons a l ih =>
    simp only [List.map_cons, List.prod_cons, ← ih]
    ring

theorem list_prod_map_dvd (l : List Nat) (g : Nat → Nat) (h : ∀ x ∈ l, g x ∣ x) :
    (l.map g).prod ∣ l.prod := by
  induction l with
  | nil => simp
  | cons a l ih =>
    simp only [List.map_cons, List.prod_cons]
    exact mul_dvd_mul (h a (List.mem_cons_self a l))
      (ih fun x hx => h x (List.mem_cons_of_mem a hx))

theorem squarefree_prod_map :
    ∀ (l : List Nat), l.Nodup → (∀ p ∈ l, Nat.Prime p) →
      ∀ g : Nat → Nat, (∀ p ∈ l, g p = p ∨ g p = 1) →
        Squarefree (l.map g).prod
  | [], _, _, g, _ => by simp [squarefree_one]
  | a :: l, hnd, hp, g, hg => by
    have hnd' := (List.nodup_cons.1 hnd).2
    have hna := (List.nodup_cons.1 hnd).1
    have ha := hp a (List.mem_cons_self a l)
    have ih := squarefree_prod_map l hnd' (fun p hp' => hp p (List.mem_cons_of_mem a hp'))
      g (fun p hp' => hg p (List.mem_cons_of_mem a hp'))
    rcases hg a (List.mem_cons_self a l) with hga | hga
    · simp only [List.map_cons, List.prod_cons, hga]
      have hdvd : (l.map g).prod ∣ l.prod :=
        list_prod_map_dvd l g fun x hx => by
          rcases hg x (List.mem_cons_of_mem a hx) with h | h
          · rw [h]
          · rw [h]; exact one_dvd x
      have hnotdvd : ¬ a ∣ (l.map g).prod := by
        intro hd
        obtain ⟨b, hb, hab⟩ := (ha.prime.dvd_prod_iff).1 (hd.trans hdvd)
        exact hna (((Nat.prime_dvd_prime_iff_eq ha (hp b (List.mem_cons_of_mem a hb))).1 hab) ▸ hb)
      exact (Nat.squarefree_mul ((Nat.Prime.coprime_iff_not_dvd ha).2 hnotdvd)).2
        ⟨ha.prime.squarefree, ih⟩
    · simp only [List.map_cons, List.prod_cons, hga, one_mul]
      exact ih

theorem prod_dedup_map (l : List Nat) (f : Nat → Nat) :
    (l.dedup.map f).prod = ∏ p ∈ l.toFinset, f p := by
  rw [Finset.prod_eq_multiset_prod]
  have hval : (l.toFinset).val = (↑l.dedup : Multiset Nat) := Multiset.coe_dedup l
  rw [hval, Multiset.map_coe, Multiset.prod_coe]

theorem prod_dedup_pow_count (l : List Nat) :
    (l.dedup.map fun p => p ^ l.count p).prod = l.prod := by
  rw [prod_dedup_map]
  have h := Finset.prod_multiset_count (↑l : Multiset Nat)
  simpa [Multiset.prod_coe, Multiset.coe_count] using h.symm

theorem pow_half_sq_mul_parity (p e : Nat) :
    (p ^ (e / 2)) ^ 2 * (if e % 2 > 0 then p else 1) = p ^ e := by
  rcases Nat.mod_two_eq_zero_or_one e with he | he
  · rw [he]
    simp only [gt_iff_lt, Nat.lt_irrefl, if_false, mul_one, ← pow_mul]
    congr 1
    omega
  · rw [he]
    simp only [gt_iff_lt, Nat.zero_lt_one, if_true, ← pow_mul]
    rw [← pow_succ]
    congr 1
    omega

theorem decompose_spec (n : Nat) (hn : n ≠ 0) :
    ∃ S R : Nat, 0 < S ∧ S ^ 2 * R = n ∧ Squarefree R ∧
      SymbolicSum.decompose n = [(if R = 1 then 1 else R, S)] := by
  refine ⟨((factor_counts n).map fun pe => pe.1 ^ (pe.2 / 2)).prod,
          ((factor_counts n).map fun pe => if pe.2 % 2 > 0 then pe.1 else 1).prod,
          ?_, ?_, ?_, ?_⟩
  · rcases Nat.eq_zero_or_pos ((factor_counts n).map fun pe => pe.1 ^ (pe.2 / 2)).prod with h | h
    · exfalso
      rw [List.prod_eq_zero_iff] at h
      obtain ⟨pe, hpe, hz⟩ := List.mem_map.1 h
      have hp : Nat.Prime pe.1 := by
        obtain ⟨p, hp', hpp⟩ := List.mem_map.1 hpe
        rw [← hpp]
        exact Nat.prime_of_mem_primeFactorsList (List.mem_dedup.1 hp')
      exact (pow_ne_zero _ hp.pos.ne') hz
    · exact h
  · calc ((factor_counts n).map fun pe => pe.1 ^ (pe.2 / 2)).prod ^ 2 *
        ((factor_counts n).map fun pe => if pe.2 % 2 > 0 then pe.1 else 1).prod
        = ((factor_counts n).map fun pe => (pe.1 ^ (pe.2 / 2)) ^ 2).prod *
          ((factor_counts n).map fun pe => if pe.2 % 2 > 0 then pe.1 else 1).prod := by
          rw [list_prod_map_sq]
      _ = ((factor_counts n).map fun pe =>
            (pe.1 ^ (pe.2 / 2)) ^ 2 * (if pe.2 % 2 > 0 then pe.1 else 1)).prod := by
          rw [list_prod_map_mul]
      _ = ((factor_counts n).map fun pe => pe.1 ^ pe.2).prod := by
          congr 1
          apply List.map_congr_left
          intro pe _
          exact pow_half_sq_mul_parity pe.1 pe.2
      _ = ((factorization_run n).dedup.map fun p => p ^ (factorization_run n).count p).prod := by
          rw [factor_counts, List.map_map]
          rfl
      _ = (factorization_run n).prod := prod_dedup_pow_count _
      _ = n := Nat.prod_primeFactorsList hn
  · rw [factor_counts, List.map_map]
    have hfun : ((fun pe : Nat × Nat => if pe.2 % 2 > 0 then pe.1 else 1) ∘
        fun p => (p, (factorization_run n).count p)) =
        fun p => if (factorization_run n).count p % 2 > 0 then p else 1 := rfl
    rw [hfun]
    exact squarefree_prod_map _ (List.nodup_dedup _)
      (fun p hp => Nat.prime_of_mem_primeFactorsList (List.mem_dedup.1 hp))
      _ (fun p _ => by split_ifs <;> simp)
  · simp only [SymbolicSum.decompose, list_foldl_pair_split, one_mul]

theorem decompose_sq (m : Nat) (hm : 0 < m) : SymbolicSum.decompose (m ^ 2) = [(1, m)] := by
  have hcount : ∀ p, (factorization_run (m ^ 2)).count p = 2 * m.factorization p := by
    intro p
    rw [factorization_run, Nat.primeFactorsList_count_eq, Nat.factorization_pow]
    simp
  have hR : ((factor_counts (m ^ 2)).map fun pe => if pe.2 % 2 > 0 then pe.1 else 1).prod = 1 := by
    apply List.prod_eq_one
    intro x hx
    obtain ⟨pe, hpe, rfl⟩ := List.mem_map.1 hx
    obtain ⟨p, _, rfl⟩ := List.mem_map.1 hpe
    simp [hcount p, Nat.mul_mod_right]
  have hS : ((factor_counts (m ^ 2)).map fun pe => pe.1 ^ (pe.2 / 2)).prod = m := by
    rw [factor_counts, List.map_map]
    have hfun : ((fun pe : Nat × Nat => pe.1 ^ (pe.2 / 2)) ∘
        fun p => (p, (factorization_run (m ^ 2)).count p)) =
        fun p => p ^ (m.factorization p) := by
      funext p
      simp only [Function.comp_apply, hcount p]
      congr 1
      omega
    rw [hfun, prod_dedup_map]
    have htf : (factorization_run (m ^ 2)).toFinset = m.primeFactors := by
      rw [factorization_run]
      show (m ^ 2).primeFactors = m.primeFactors
      exact Nat.primeFactors_pow m (by norm_num)
    rw [htf]
    have h := Nat.factorization_prod_pow_eq_self hm.ne'
    rw [Finsupp.prod, Nat.support_factorization] at h
    exact h
  simp only [SymbolicSum.decompose, list_foldl_pair_split, one_mul, hR, hS]
  simp

theorem lookup_term_nil (k : Nat) : lookup_term [] k = 0 := rfl

theorem lookup_term_cons (kv : Nat × Nat) (ts : List (Nat × Nat)) (k : Nat) :
    lookup_term (kv :: ts) k = if kv.1 = k then kv.2 else lookup_term ts k := by
  by_cases h : kv.1 = k
  · simp [lookup_term, List.find?_cons, h]
  · simp [lookup_term, List.find?_cons, h]

theorem lookup_update_self :
    ∀ (ts : List (Nat × Nat)) (k v : Nat),
      lookup_term (update_term ts k v) k = lookup_term ts k + v
  | [], k, v => by simp [update_term, lookup_term_cons, lookup_term_nil]
  | kv0 :: rest, k, v => by
    by_cases h : kv0.1 = k
    · rw [update_term, if_pos h]
      simp [lookup_term_cons, h]
    · rw [update_term, if_neg h]
      simp [lookup_term_cons, h, lookup_update_self rest k v]

theorem lookup_update_other :
    ∀ (ts : List (Nat × Nat)) (k v k' : Nat), k' ≠ k →
      lookup_term (update_term ts k v) k' = lookup_term ts k'
  | [], k, v, k', hk => by
    simp [update_term, lookup_term_cons, lookup_term_nil, Ne.symm hk]
  | kv0 :: rest, k, v, k', hk => by
    by_cases h : kv0.1 = k
    · rw [update_term, if_pos h]
      have : kv0.1 ≠ k' := by rw [h]; exact Ne.symm hk
      simp [lookup_term_cons, this]
    · rw [update_term, if_neg h]
      simp [lookup_term_cons, lookup_update_other rest k v k' hk]

theorem gridcell_ne_component (p q : GridCell) (h : p ≠ q) :
    q.x - p.x ≠ 0 ∨ q.y - p.y ≠ 0 := by
  by_contra hc
  push_neg at hc
  apply h
  cases p; cases q
  simp only [GridCell.mk.injEq]
  simp only [GridCell.mk.injEq] at hc
  omega

/-- Claim C4, amended: for two distinct lattice points whose squared-distance
computation succeeds with value `n`, `add_distance` factors `n = S² · R` with
`R` square-free, adds `S` to the constant when `R = 1`, and otherwise adds `S`
to the coefficient stored under radicand `R`, creating the entry when absent
and touching nothing else; and decomposing a perfect square `m²` (m ≥ 1)
contributes exactly `m` with no radical term.  (For two equal points — squared
distance 0 — the factorisation `0 = S²·R` would force `S = 0`, but the code
adds 1 to the constant; hence the restriction to distinct points.) -/
theorem c4_add_distance_decomposition (s : SymbolicSum) (p q : GridCell) (n : Nat)
    (hpq : p ≠ q) (hn : p.euclidean_distance_squared q = some n) :
    (∃ S R : Nat, 0 < S ∧ n = S ^ 2 * R ∧ Squarefree R ∧
      ((R = 1 ∧ s.add_distance p q = some ⟨s.constant + S, s.square_root_terms⟩) ∨
       (R ≠ 1 ∧ ∃ s', s.add_distance p q = some s' ∧
          s'.constant = s.constant ∧
          lookup_term s'.square_root_terms R = lookup_term s.square_root_terms R + S ∧
          ∀ k, k ≠ R → lookup_term s'.square_root_terms k =
            lookup_term s.square_root_terms k))) ∧
    ∀ m : Nat, 0 < m → SymbolicSum.decompose (m ^ 2) = [(1, m)] := by
  refine ⟨?_, fun m hm => decompose_sq m hm⟩
  have hn0 : n ≠ 0 := by
    by_cases h1 : (q.x - p.x) ^ 2 ≤ isizeMax
    · by_cases h2 : (q.y - p.y) ^ 2 ≤ isizeMax
      · by_cases h3 : (q.x - p.x) ^ 2 + (q.y - p.y) ^ 2 ≤ isizeMax
        · have hneq : some (((q.x - p.x) ^ 2 + (q.y - p.y) ^ 2).toNat) = some n := by
            rw [← hn]
            simp [GridCell.euclidean_distance_squared, checked_pow_2, h1, h2, h3]
          have hneq' : ((q.x - p.x) ^ 2 + (q.y - p.y) ^ 2).toNat = n :=
            Option.some.inj hneq
          rcases gridcell_ne_component p q hpq with h | h
          · have hpos : 0 < (q.x - p.x) ^ 2 := by rw [pow_two]; exact mul_self_pos.2 h
            have hnn : 0 ≤ (q.y - p.y) ^ 2 := sq_nonneg _
            omega
          · have hpos : 0 < (q.y - p.y) ^ 2 := by rw [pow_two]; exact mul_self_pos.2 h
            have hnn : 0 ≤ (q.x - p.x) ^ 2 := sq_nonneg _
            omega
        · exfalso
          simp [GridCell.euclidean_distance_squared, checked_pow_2, h1, h2, h3] at hn
      · exfalso
        simp [GridCell.euclidean_distance_squared, checked_pow_2, h1, h2] at hn
    · exfalso
      simp [GridCell.euclidean_distance_squared, checked_pow_2, h1] at hn
  obtain ⟨S, R, hSpos, hSR, hRsf, hdec⟩ := decompose_spec n hn0
  refine ⟨S, R, hSpos, hSR.symm, hRsf, ?_⟩
  by_cases hR : R = 1
  · left
    refine ⟨hR, ?_⟩
    subst hR
    rw [if_pos rfl] at hdec
    simp [SymbolicSum.add_distance, hn, hdec, SymbolicSum.add_decomposition]
  · right
    rw [if_neg hR] at hdec
    refine ⟨hR, ⟨s.constant, update_term s.square_root_terms R S⟩, ?_, rfl,
      lookup_update_self s.square_root_terms R S,
      fun k hk => lookup_update_other s.square_root_terms R S k hk⟩
    have hfind : (([(R, S)].find? fun kv => kv.1 == 1) = none) := by
      simp [List.find?_cons, hR]
    simp [SymbolicSum.add_distance, hn, hdec, SymbolicSum.add_decomposition, hfind, hR]

/-- Claim C4, witness: the points `(0,0)` and `(1,2)` are at squared distance
5 = 1² · 5 with 5 square-free, so the default sum gains the term `√5`; and the
perfect-square round trip at a concrete `m` follows from the same theorem. -/
theorem c4_witness :
    ((∃ S R : Nat, 0 < S ∧ 5 = S ^ 2 * R ∧ Squarefree R ∧
      ((R = 1 ∧ SymbolicSum.add_distance ⟨0, []⟩ ⟨0, 0⟩ ⟨1, 2⟩ =
          some ⟨0 + S, ([] : List (Nat × Nat))⟩) ∨
       (R ≠ 1 ∧ ∃ s', SymbolicSum.add_distance ⟨0, []⟩ ⟨0, 0⟩ ⟨1, 2⟩ = some s' ∧
          s'.constant = 0 ∧
          lookup_term s'.square_root_terms R = lookup_term [] R + S ∧
          ∀ k, k ≠ R → lookup_term s'.square_root_terms k = lookup_term [] k))) ∧
    ∀ m : Nat, 0 < m → SymbolicSum.decompose (m ^ 2) = [(1, m)]) :=
  c4_add_distance_decomposition ⟨0, []⟩ ⟨0, 0⟩ ⟨1, 2⟩ 5 (by decide) (by decide)

/-- Claim C4, counterexample: at equal points the code adds 1 to the constant,
although any factorisation `0 = S² · R` with `R` square-free forces `S = 0`
(so the claim would demand the constant gain 0). -/
theorem c4_counterexample :
    SymbolicSum.add_distance ⟨0, []⟩ ⟨0, 0⟩ ⟨0, 0⟩ = some ⟨1, []⟩ ∧
    ∀ S R : Nat, Squarefree R → S ^ 2 * R = 0 → S = 0 := by
  constructor
  · exact add_distance_self_eq ⟨0, []⟩ ⟨0, 0⟩
  · intro S R hRsf hSR
    rcases Nat.mul_eq_zero.1 hSR with h | h
    · exact (pow_eq_zero_iff (by norm_num)).1 h
    · exact absurd (h ▸ hRsf) not_squarefree_zero

/-! ## Claim C6 -/

theorem overlaps_on_line (s t : LineSegment) (L : Axis × Int)
    (h : s.overlaps t = true) (hs : OnLine L s) : OnLine L t := by
  rcases (overlaps_iff_spec s t).1 h with ⟨h1, h2, h3, h4⟩ | ⟨h1, h2, h3, h4⟩ <;>
    rcases L with ⟨ax, k⟩ <;> cases ax <;>
      simp only [IsHorizontal, IsVertical] at h1 h2 <;>
        simp only [OnLine] at hs ⊢ <;> omega

theorem overlaps_exists_line (s t : LineSegment) (h : s.overlaps t = true) :
    ∃ L, OnLine L s ∧ OnLine L t := by
  rcases (overlaps_iff_spec s t).1 h with ⟨h1, h2, h3, h4⟩ | ⟨h1, h2, h3, h4⟩
  · simp only [IsHorizontal] at h1 h2
    exact ⟨(Axis.Horizontal, s.start.y), ⟨rfl, h1.symm⟩, ⟨h3.symm, by omega⟩⟩
  · simp only [IsVertical] at h1 h2
    exact ⟨(Axis.Vertical, s.start.x), ⟨rfl, h1.symm⟩, ⟨h3.symm, by omega⟩⟩

theorem segs_mk (s : LineSegment) (cs : List LineSegmentTreeNode) :
    (LineSegmentTreeNode.mk s cs).segs = s :: LineSegmentTreeNode.segsList cs := by
  rw [LineSegmentTreeNode.segs]

theorem segsList_nil : LineSegmentTreeNode.segsList [] = [] := by
  rw [LineSegmentTreeNode.segsList]

theorem segsList_cons (n : LineSegmentTreeNode) (rest : List LineSegmentTreeNode) :
    LineSegmentTreeNode.segsList (n :: rest) =
      n.segs ++ LineSegmentTreeNode.segsList rest := by
  rw [LineSegmentTreeNode.segsList]

theorem seg_mem_segs (n : LineSegmentTreeNode) : n.line_segment ∈ n.segs := by
  cases n with
  | mk s cs =>
    rw [segs_mk]
    exact List.mem_cons_self _ _

theorem segsList_insert_at :
    ∀ (p : Nat) (nd : LineSegmentTreeNode) (ns : List LineSegmentTreeNode),
      ∀ t ∈ LineSegmentTreeNode.segsList (insert_at p nd ns),
        t ∈ nd.segs ∨ t ∈ LineSegmentTreeNode.segsList ns
  | 0, nd, l => by
    intro t ht
    rw [insert_at, segsList_cons] at ht
    rcases List.mem_append.1 ht with h | h
    · exact Or.inl h
    · exact Or.inr h
  | p + 1, nd, [] => by
    intro t ht
    rw [insert_at, segsList_cons, segsList_nil, List.append_nil] at ht
    exact Or.inl ht
  | p + 1, nd, x :: xs => by
    intro t ht
    rw [insert_at, segsList_cons] at ht
    rcases List.mem_append.1 ht with h | h
    · exact Or.inr (by rw [segsList_cons]; exact List.mem_append.2 (Or.inl h))
    · rcases segsList_insert_at p nd xs t h with h' | h'
      · exact Or.inl h'
      · exact Or.inr (by rw [segsList_cons]; exact List.mem_append.2 (Or.inr h'))

mutual

theorem insert_segment_all_on (L : Axis × Int) (ns : List LineSegmentTreeNode) (c : LineSegment)
    (h1 : ∀ t ∈ LineSegmentTreeNode.segsList ns, OnLine L t) (h2 : OnLine L c) :
    ∀ t ∈ LineSegmentTreeNode.segsList (LineSegmentTreeNode.insert_segment ns c),
      OnLine L t := by
  rw [LineSegmentTreeNode.insert_segment.eq_def]
  by_cases hov : (ns.any fun n => n.line_segment.overlaps c) = true
  · rw [if_pos hov]
    exact replace_first_all_on L ns c h1 h2
  · rw [if_neg hov]
    intro t ht
    rcases segsList_insert_at _ _ _ t ht with h | h
    · rw [segs_mk, segsList_nil] at h
      rcases List.mem_cons.1 h with rfl | h'
      · exact h2
      · exact absurd h' (List.not_mem_nil t)
    · exact h1 t h
termination_by (sizeOf ns, 1)

theorem replace_first_all_on (L : Axis × Int) (ns : List LineSegmentTreeNode) (c : LineSegment)
    (h1 : ∀ t ∈ LineSegmentTreeNode.segsList ns, OnLine L t) (h2 : OnLine L c) :
    ∀ t ∈ LineSegmentTreeNode.segsList (LineSegmentTreeNode.replace_first_overlap ns c),
      OnLine L t := by
  cases ns with
  | nil =>
    rw [replace_first_overlap_nil]
    intro t ht
    rw [segsList_nil] at ht
    exact absurd ht (List.not_mem_nil t)
  | cons n rest =>
    rw [replace_first_overlap_cons]
    rw [segsList_cons] at h1
    by_cases ho : n.line_segment.overlaps c
    · rw [if_pos ho]
      intro t ht
      rw [segsList_cons] at ht
      rcases List.mem_append.1 ht with h | h
      · exact prioritise_all_on L c n (fun u hu => h1 u (List.mem_append.2 (Or.inl hu))) h2 t h
      · exact h1 t (List.mem_append.2 (Or.inr h))
    · rw [if_neg ho]
      intro t ht
      rw [segsList_cons] at ht
      rcases List.mem_append.1 ht with h | h
      · exact h1 t (List.mem_append.2 (Or.inl h))
      · exact replace_first_all_on L rest c
          (fun u hu => h1 u (List.mem_append.2 (Or.inr hu))) h2 t h
termination_by (sizeOf ns, 0)

theorem prioritise_all_on (L : Axis × Int) (c : LineSegment) (nd : LineSegmentTreeNode)
    (h1 : ∀ t ∈ nd.segs, OnLine L t) (h2 : OnLine L c) :
    ∀ t ∈ (LineSegmentTreeNode.prioritise_node_lengths c nd).segs, OnLine L t := by
  cases nd with
  | mk seg cs =>
    rw [prioritise_eq]
    rw [segs_mk] at h1
    by_cases hlen : seg.get_length ≥ c.get_length
    · rw [if_pos hlen]
      intro t ht
      rw [segs_mk] at ht
      rcases List.mem_cons.1 ht with rfl | h
      · exact h1 t (List.mem_cons_self _ _)
      · exact insert_segment_all_on L cs c
          (fun u hu => h1 u (List.mem_cons_of_mem _ hu)) h2 t h
    · rw [if_neg hlen]
      intro t ht
      rw [segs_mk] at ht
      rcases List.mem_cons.1 ht with rfl | h
      · exact h2
      · exact insert_segment_all_on L cs seg
          (fun u hu => h1 u (List.mem_cons_of_mem _ hu))
          (h1 seg (List.mem_cons_self _ _)) t h
termination_by (sizeOf nd, 2)

end

theorem replace_first_inv (c : LineSegment) :
    ∀ roots : List LineSegmentTreeNode,
      (∀ nd ∈ roots, nd.children = [] ∨ ∃ L, ∀ t ∈ nd.segs, OnLine L t) →
      ∀ nd ∈ LineSegmentTreeNode.replace_first_overlap roots c,
        nd.children = [] ∨ ∃ L, ∀ t ∈ nd.segs, OnLine L t
  | [], h => by
    rw [replace_first_overlap_nil]
    intro nd hnd
    exact absurd hnd (List.not_mem_nil nd)
  | n :: rest, h => by
    rw [replace_first_overlap_cons]
    by_cases ho : n.line_segment.overlaps c
    · rw [if_pos ho]
      intro nd hnd
      rcases List.mem_cons.1 hnd with rfl | hm
      · right
        rcases h n (List.mem_cons_self _ _) with hleaf | ⟨L, hL⟩
        · obtain ⟨L, hLs, hLc⟩ := overlaps_exists_line _ _ ho
          refine ⟨L, prioritise_all_on L c n ?_ hLc⟩
          intro t ht
          cases n with
          | mk sg cs =>
            have hcs : cs = [] := hleaf
            subst hcs
            rw [segs_mk, segsList_nil] at ht
            rcases List.mem_cons.1 ht with rfl | h0
            · exact hLs
            · exact absurd h0 (List.not_mem_nil t)
        · exact ⟨L, prioritise_all_on L c n hL
            (overlaps_on_line _ _ L ho (hL _ (seg_mem_segs n)))⟩
      · exact h nd (List.mem_cons_of_mem _ hm)
    · rw [if_neg ho]
      intro nd hnd
      rcases List.mem_cons.1 hnd with rfl | hm
      · exact h nd (List.mem_cons_self _ _)
      · exact replace_first_inv c rest
          (fun u hu => h u (List.mem_cons_of_mem _ hu)) nd hm

theorem add_child_inv (roots : List LineSegmentTreeNode) (c : LineSegment)
    (h : ∀ nd ∈ roots, nd.children = [] ∨ ∃ L, ∀ t ∈ nd.segs, OnLine L t) :
    ∀ nd ∈ LineSegmentTree.add_child roots c,
      nd.children = [] ∨ ∃ L, ∀ t ∈ nd.segs, OnLine L t := by
  unfold LineSegmentTree.add_child
  by_cases hov : (roots.any fun n => n.line_segment.overlaps c) = true
  · rw [if_pos hov]
    exact replace_first_inv c roots h
  · rw [if_neg hov]
    intro nd hnd
    rcases List.mem_append.1 hnd with hm | hm
    · exact h nd hm
    · rcases List.mem_cons.1 hm with rfl | h0
      · exact Or.inl rfl
      · exact absurd h0 (List.not_mem_nil nd)

theorem foldl_add_child_inv :
    ∀ (ss : List LineSegment) (init : List LineSegmentTreeNode),
      (∀ nd ∈ init, nd.children = [] ∨ ∃ L, ∀ t ∈ nd.segs, OnLine L t) →
      ∀ nd ∈ List.foldl LineSegmentTree.add_child init ss,
        nd.children = [] ∨ ∃ L, ∀ t ∈ nd.segs, OnLine L t
  | [], init, h => by
    intro nd hnd
    exact h nd hnd
  | c :: ss, init, h => by
    intro nd hnd
    exact foldl_add_child_inv ss (LineSegmentTree.add_child init c)
      (add_child_inv init c h) nd hnd

theorem insert_all_inv (ss : List LineSegment) :
    ∀ nd ∈ LineSegmentTree.insert_all ss,
      nd.children = [] ∨ ∃ L, ∀ t ∈ nd.segs, OnLine L t :=
  foldl_add_child_inv ss [] (fun nd hnd => absurd hnd (List.not_mem_nil nd))

theorem subnodes_mk (s : LineSegment) (cs : List LineSegmentTreeNode) :
    (LineSegmentTreeNode.mk s cs).subnodes =
      LineSegmentTreeNode.mk s cs :: LineSegmentTreeNode.subnodesList cs := by
  rw [LineSegmentTreeNode.subnodes]

theorem subnodesList_nil : LineSegmentTreeNode.subnodesList [] = [] := by
  rw [LineSegmentTreeNode.subnodesList]

theorem subnodesList_cons (n : LineSegmentTreeNode) (rest : List LineSegmentTreeNode) :
    LineSegmentTreeNode.subnodesList (n :: rest) =
      n.subnodes ++ LineSegmentTreeNode.subnodesList rest := by
  rw [LineSegmentTreeNode.subnodesList]

theorem mem_segsList_of_mem :
    ∀ (l : List LineSegmentTreeNode) (c : LineSegmentTreeNode), c ∈ l →
      ∀ t ∈ c.segs, t ∈ LineSegmentTreeNode.segsList l
  | [], c, hc => absurd hc (List.not_mem_nil c)
  | a :: rest, c, hc => by
    intro t ht
    rw [segsList_cons]
    rcases List.mem_cons.1 hc with rfl | hm
    · exact List.mem_append.2 (Or.inl ht)
    · exact List.mem_append.2 (Or.inr (mem_segsList_of_mem rest c hm t ht))

theorem mem_subnodesList :
    ∀ (l : List LineSegmentTreeNode) (N : LineSegmentTreeNode),
      N ∈ LineSegmentTreeNode.subnodesList l → ∃ c ∈ l, N ∈ c.subnodes
  | [], N => by
    rw [subnodesList_nil]
    intro h
    exact absurd h (List.not_mem_nil N)
  | a :: rest, N => by
    rw [subnodesList_cons]
    intro h
    rcases List.mem_append.1 h with hm | hm
    · exact ⟨a, List.mem_cons_self _ _, hm⟩
    · obtain ⟨c, hc, hN⟩ := mem_subnodesList rest N hm
      exact ⟨c, List.mem_cons_of_mem _ hc, hN⟩

theorem subnode_segs_subset (R : LineSegmentTreeNode) :
    ∀ N : LineSegmentTreeNode, N ∈ R.subnodes → ∀ t ∈ N.segs, t ∈ R.segs := by
  cases R with
  | mk s cs =>
    intro N hN t ht
    rw [subnodes_mk] at hN
    rcases List.mem_cons.1 hN with rfl | hm
    · exact ht
    · obtain ⟨c, hc, hNc⟩ := mem_subnodesList cs N hm
      have hrec := subnode_segs_subset c N hNc t ht
      rw [segs_mk]
      exact List.mem_cons_of_mem _ (mem_segsList_of_mem cs c hc t hrec)
termination_by sizeOf R
decreasing_by
  have := List.sizeOf_lt_of_mem hc
  simp only [LineSegmentTreeNode.mk.sizeOf_spec]
  omega

/-- Claim C6, amended: after any sequence of insertions, every node whose
subtree holds at least two segments has all segments of its subtree on one
common axis-aligned line (collinearity with the node's segment is maintained);
the stronger original claim — that a node's segment positively overlaps every
segment of its subtree — fails after promotions. -/
theorem c6_subtree_collinear (ss : List LineSegment) (R : LineSegmentTreeNode)
    (hR : R ∈ LineSegmentTree.insert_all ss) (N : LineSegmentTreeNode)
    (hN : N ∈ R.subnodes) (hlen : 2 ≤ N.segs.length) :
    ∃ L, ∀ t ∈ N.segs, OnLine L t := by
  rcases insert_all_inv ss R hR with hleaf | ⟨L, hL⟩
  · cases R with
    | mk s cs =>
      have hcs : cs = [] := hleaf
      subst hcs
      rw [subnodes_mk, subnodesList_nil] at hN
      rcases List.mem_cons.1 hN with rfl | h0
      · rw [segs_mk, segsList_nil] at hlen
        simp at hlen
      · exact absurd h0 (List.not_mem_nil N)
  · exact ⟨L, fun t ht => hL t (subnode_segs_subset R N hN t ht)⟩

unseal Nat.sqrt.iter LineSegmentTreeNode.insert_segment LineSegmentTreeNode.replace_first_overlap LineSegmentTreeNode.prioritise_node_lengths binary_search_pos in
/-- Claim C6, witness: the two nested vertical segments produced by inserting
(0,0)-(0,2) and then (0,0)-(0,1) all lie on one common line. -/
theorem c6_collinear_witness :
    ∃ L, ∀ t ∈ (LineSegmentTreeNode.mk ⟨⟨0, 0⟩, ⟨0, 2⟩, 0⟩
        [LineSegmentTreeNode.mk ⟨⟨0, 0⟩, ⟨0, 1⟩, 0⟩ []]).segs, OnLine L t := by
  have htree : LineSegmentTree.insert_all [⟨⟨0, 0⟩, ⟨0, 2⟩, 0⟩, ⟨⟨0, 0⟩, ⟨0, 1⟩, 0⟩] =
      [LineSegmentTreeNode.mk ⟨⟨0, 0⟩, ⟨0, 2⟩, 0⟩
        [LineSegmentTreeNode.mk ⟨⟨0, 0⟩, ⟨0, 1⟩, 0⟩ []]] := by rfl
  refine c6_subtree_collinear [⟨⟨0, 0⟩, ⟨0, 2⟩, 0⟩, ⟨⟨0, 0⟩, ⟨0, 1⟩, 0⟩] _
    (htree ▸ List.mem_cons_self _ _) _ ?_ ?_
  · rw [subnodes_mk]
    exact List.mem_cons_self _ _
  · rw [segs_mk, segsList_cons, segs_mk, segsList_nil]
    simp
